import Mathlib

/-!
Verification of the distributed radial N-body kernel (sparc).

Shallow embedding of the MPI core:
  - src/src/core/sort_particles.cpp        (sortParticlesParallel, MergeElement)
  - src/src/core/ParticleSystem.cpp        (resize, computeSquareRadius, getMaxRadiusSquared)
  - src/sparc_mpi/src/core/update_electric_field.cpp (updateElectricFieldParallel)

Modelling conventions:
  - C++ `double` values are modelled as exact rationals (ℚ); IEEE rounding is not
    modelled, arithmetic and comparisons are exact.
  - The Structure-of-Arrays particle store (nine parallel `std::vector<double>`
    of equal length) is modelled as a list of `Particle` records: every loop in
    the sources moves all nine arrays with the same index permutation, so the
    array-of-records view is isomorphic.
  - The MPI world (`size` ranks, one shell each) is a `List` of shells; each
    collective (Allreduce, Alltoall(v), Exscan) is evaluated functionally on
    the whole world, which is exactly the value every rank observes.
  - `std::sort` with comparator `r2[a] < r2[b]` returns some permutation sorted
    by `r2`; the order of equal keys is unspecified by the standard.  We model
    it as a stable insertion sort (equal keys keep their relative order).  No
    theorem below depends on the tie order of the local sort.
-/

set_option maxRecDepth 40000

/-- One particle record: the nine per-particle doubles of the SoA store
`x, y, z, vx, vy, vz, q, Er, r2` (see ParticleSystem.h). -/
structure Particle where
  x : ℚ
  y : ℚ
  z : ℚ
  vx : ℚ
  vy : ℚ
  vz : ℚ
  q : ℚ
  Er : ℚ
  r2 : ℚ
deriving DecidableEq, Inhabited

/-- Sortedness of a list by a rational key, non-decreasing. -/
def KSorted {α : Type} (k : α → ℚ) (l : List α) : Prop :=
  List.Sorted (fun a b => k a ≤ k b) l

instance {α : Type} (k : α → ℚ) (l : List α) : Decidable (KSorted k l) := by
  unfold KSorted
  infer_instance

/-- Ordered insertion used to model sorting and the priority queue: `a` is placed
before the first element whose key is strictly greater, i.e. after all elements
with an equal or smaller key (stable). -/
def insKey {α : Type} (k : α → ℚ) (a : α) : List α → List α
  | [] => [a]
  | b :: l => if k a < k b then a :: b :: l else b :: insKey k a l

theorem insKey_perm {α : Type} (k : α → ℚ) (a : α) (l : List α) :
    (insKey k a l).Perm (a :: l) := by
  induction l with
  | nil => simp [insKey]
  | cons b t ih =>
    by_cases h : k a < k b
    · simp [insKey, h]
    · simp only [insKey, if_neg h]
      exact (ih.cons b).trans (List.Perm.swap a b t)

theorem mem_insKey {α : Type} (k : α → ℚ) (a x : α) (l : List α) :
    x ∈ insKey k a l ↔ x = a ∨ x ∈ l := by
  rw [(insKey_perm k a l).mem_iff, List.mem_cons]

theorem insKey_sorted {α : Type} (k : α → ℚ) (a : α) (l : List α)
    (h : KSorted k l) : KSorted k (insKey k a l) := by
  induction l with
  | nil => simp [insKey, KSorted]
  | cons b t ih =>
    simp only [KSorted, List.sorted_cons] at h
    by_cases hab : k a < k b
    · simp only [insKey, if_pos hab, KSorted, List.sorted_cons]
      refine ⟨?_, ?_, h.2⟩
      · intro y hy
        rcases List.mem_cons.mp hy with rfl | hy
        · exact le_of_lt hab
        · exact le_trans (le_of_lt hab) (h.1 y hy)
      · exact h.1
    · simp only [insKey, if_neg hab, KSorted, List.sorted_cons]
      refine ⟨?_, ih h.2⟩
      intro y hy
      rcases (mem_insKey k a y t).mp hy with rfl | hy
      · exact le_of_not_lt hab
      · exact h.1 y hy

/-- Stable sort by key, modelling the local indirect `std::sort` by `r2`
followed by applying the index permutation to all nine arrays. -/
def sortByKey {α : Type} (k : α → ℚ) (l : List α) : List α :=
  l.foldl (fun acc x => insKey k x acc) []

theorem foldl_insKey_perm {α : Type} (k : α → ℚ) (l acc : List α) :
    (l.foldl (fun acc x => insKey k x acc) acc).Perm (l ++ acc) := by
  induction l generalizing acc with
  | nil => simp
  | cons x t ih =>
    simp only [List.foldl_cons, List.cons_append]
    refine ((ih (insKey k x acc)).trans ?_)
    exact (List.Perm.append_left t (insKey_perm k x acc)).trans List.perm_middle

theorem sortByKey_perm {α : Type} (k : α → ℚ) (l : List α) :
    (sortByKey k l).Perm l := by
  have h := foldl_insKey_perm k l []
  simpa [sortByKey] using h

theorem foldl_insKey_sorted {α : Type} (k : α → ℚ) (l acc : List α)
    (h : KSorted k acc) :
    KSorted k (l.foldl (fun acc x => insKey k x acc) acc) := by
  induction l generalizing acc with
  | nil => simpa using h
  | cons x t ih => exact ih _ (insKey_sorted k x acc h)

theorem sortByKey_sorted {α : Type} (k : α → ℚ) (l : List α) :
    KSorted k (sortByKey k l) :=
  foldl_insKey_sorted k l [] (by simp [KSorted])

theorem mem_sortByKey {α : Type} (k : α → ℚ) (x : α) (l : List α) :
    x ∈ sortByKey k l ↔ x ∈ l :=
  (sortByKey_perm k l).mem_iff

/-! ### List index helpers -/

theorem getD_lt_of_ne_nil {α : Type} (L : List (List α)) (c : ℕ) (p : α)
    (ps : List α) (h : L.getD c [] = p :: ps) : c < L.length := by
  by_contra hc
  rw [List.getD_eq_default _ _ (le_of_not_lt hc)] at h
  exact List.noConfusion h

theorem getD_mem_of_lt {α : Type} (L : List α) (c : ℕ) (d : α)
    (h : c < L.length) : L.getD c d ∈ L := by
  induction L generalizing c with
  | nil => simp at h
  | cons a t ih =>
    cases c with
    | zero => simp [List.getD]
    | succ c =>
      simp only [List.getD_cons_succ]
      exact List.mem_cons_of_mem a (ih c (by simpa using h))

theorem exists_getD_of_mem {α : Type} (L : List α) (l : α) (d : α)
    (h : l ∈ L) : ∃ c, c < L.length ∧ L.getD c d = l := by
  induction L with
  | nil => simp at h
  | cons a t ih =>
    rcases List.mem_cons.mp h with rfl | h
    · exact ⟨0, by simp, by simp [List.getD]⟩
    · rcases ih h with ⟨c, hc, hg⟩
      exact ⟨c + 1, by simpa using hc, by simpa [List.getD_cons_succ] using hg⟩

theorem getD_set_self {α : Type} (L : List α) (c : ℕ) (v d : α)
    (h : c < L.length) : (L.set c v).getD c d = v := by
  induction L generalizing c with
  | nil => simp at h
  | cons a t ih =>
    cases c with
    | zero => simp [List.getD]
    | succ c => simpa [List.getD_cons_succ] using ih c (by simpa using h)

theorem getD_set_ne {α : Type} (L : List α) (c c' : ℕ) (v d : α)
    (h : c' ≠ c) : (L.set c v).getD c' d = L.getD c' d := by
  induction L generalizing c c' with
  | nil => simp
  | cons a t ih =>
    cases c with
    | zero =>
      cases c' with
      | zero => exact absurd rfl h
      | succ c' => simp [List.getD_cons_succ]
    | succ c =>
      cases c' with
      | zero => simp [List.getD]
      | succ c' =>
        simpa [List.getD_cons_succ] using ih c c' (fun hh => h (by rw [hh]))

theorem mem_of_mem_set {α : Type} (L : List α) (c : ℕ) (v l : α)
    (h : l ∈ L.set c v) : l = v ∨ l ∈ L := by
  induction L generalizing c with
  | nil => simp at h
  | cons a t ih =>
    cases c with
    | zero =>
      rcases List.mem_cons.mp h with rfl | h
      · exact Or.inl rfl
      · exact Or.inr (List.mem_cons_of_mem a h)
    | succ c =>
      rcases List.mem_cons.mp h with h | h
      · exact Or.inr (by rw [h]; exact List.mem_cons_self _ _)
      · rcases ih c h with h | h
        · exact Or.inl h
        · exact Or.inr (List.mem_cons_of_mem a h)

theorem insKey_length {α : Type} (k : α → ℚ) (a : α) (l : List α) :
    (insKey k a l).length = l.length + 1 := by
  rw [(insKey_perm k a l).length_eq, List.length_cons]

theorem sumLen_set {α : Type} (L : List (List α)) (c : ℕ) (p : α)
    (ps : List α) (hg : L.getD c [] = p :: ps) :
    ((L.set c ps).map List.length).sum + 1 = (L.map List.length).sum := by
  induction L generalizing c with
  | nil =>
    exact absurd hg (by simp [List.getD])
  | cons a t ih =>
    cases c with
    | zero =>
      rw [List.getD_cons_zero] at hg
      subst hg
      simp only [List.set_cons_zero, List.map_cons, List.sum_cons, List.length_cons]
      omega
    | succ c =>
      simp only [List.getD_cons_succ] at hg
      simp only [List.set_cons_succ, List.map_cons, List.sum_cons]
      have := ih c hg
      omega

/-! ### The k-way merge (sort_particles.cpp, steps 9 and 10)

The source merges the `size` received chunks with a
`std::priority_queue<MergeElement, vector<MergeElement>, greater<MergeElement>>`
whose comparator `MergeElement::operator>` compares ONLY `r2` — the `chunk_id`
field is used to advance the right chunk, not to break ties.  A
`std::priority_queue` pops a minimal element with respect to the comparator;
the relative pop order of equal keys is not specified by the C++ standard (it
depends on the binary-heap layout).  We model the queue as a key-sorted list
into which pushes insert AFTER equal keys (`insKey`): since the comparator is
strict, a newly pushed element never displaces an equal incumbent from the top
of a binary heap either, so the model agrees with any `push_heap`/`pop_heap`
implementation whenever at most two equal keys are pending.  No theorem below
depends on tie order beyond that case.  The source pops indices into the
demultiplexed receive arrays (`merge_order`) and gathers through them
afterwards; we carry the denoted particle in the element, which composes the
gather into the merge. -/

/-- Heap element of the k-way merge (struct MergeElement in sort_particles.cpp):
key `r2`, the denoted particle (for `source_idx`), and the source chunk. -/
structure MergeElement where
  r2 : ℚ
  part : Particle
  chunk_id : ℕ
deriving DecidableEq, Inhabited

/-- Key of the merge comparator: `MergeElement::operator>` compares `r2` only. -/
def meKey (e : MergeElement) : ℚ := e.r2

/-- The merge loop: pop the minimal element, emit its particle, and push the
next pending particle of the same chunk (if any). `pending` holds, for each
chunk id, the particles of that chunk not yet pushed on the queue. -/
def mergeLoop : List MergeElement → List (List Particle) → List Particle
  | [], _ => []
  | top :: rest, pending =>
    match hp : pending.getD top.chunk_id [] with
    | [] => top.part :: mergeLoop rest pending
    | p :: ps =>
      top.part ::
        mergeLoop (insKey meKey ⟨p.r2, p, top.chunk_id⟩ rest)
          (pending.set top.chunk_id ps)
termination_by pq pending => pq.length + (pending.map List.length).sum
decreasing_by
  · simp only [List.length_cons]
    omega
  · simp only [List.length_cons, insKey_length]
    have h1 := sumLen_set pending top.chunk_id p ps hp
    omega

/-- Queue initialisation: for each non-empty chunk, in chunk order, push its
first element (sort_particles.cpp, the `recv_counts[c] > 0` loop). -/
def initQueueGo (c0 : ℕ) (q : List MergeElement) :
    List (List Particle) → List MergeElement
  | [] => q
  | [] :: rest => initQueueGo (c0 + 1) q rest
  | (p :: _) :: rest => initQueueGo (c0 + 1) (insKey meKey ⟨p.r2, p, c0⟩ q) rest

/-- The k-way merge of the received chunks (chunk `c` = what this rank received
from source rank `c`, already sorted). -/
def kwayMerge (chunks : List (List Particle)) : List Particle :=
  mergeLoop (initQueueGo 0 [] chunks) (chunks.map List.tail)

/-! ### Correctness of the k-way merge -/

/-- Multiset of the particles still pending in the chunks. -/
def pendM (L : List (List Particle)) : Multiset Particle :=
  (L.map (fun l => (l : Multiset Particle))).sum

theorem pendM_nil : pendM [] = 0 := rfl

theorem pendM_cons (l : List Particle) (t : List (List Particle)) :
    pendM (l :: t) = (l : Multiset Particle) + pendM t := rfl

theorem mem_pendM (y : Particle) (L : List (List Particle)) :
    y ∈ pendM L ↔ ∃ l ∈ L, y ∈ l := by
  induction L with
  | nil => simp [pendM_nil]
  | cons l t ih =>
    rw [pendM_cons, Multiset.mem_add, Multiset.mem_coe, ih]
    constructor
    · rintro (hy | ⟨l', hl', hy⟩)
      · exact ⟨l, List.mem_cons_self l t, hy⟩
      · exact ⟨l', List.mem_cons_of_mem l hl', hy⟩
    · rintro ⟨l', hl', hy⟩
      rcases List.mem_cons.mp hl' with rfl | hl'
      · exact Or.inl hy
      · exact Or.inr ⟨l', hl', hy⟩

theorem pendM_set (L : List (List Particle)) (c : ℕ) (p : Particle)
    (ps : List Particle) (hg : L.getD c [] = p :: ps) :
    pendM (L.set c ps) + {p} = pendM L := by
  induction L generalizing c with
  | nil => exact absurd hg (by simp [List.getD])
  | cons a t ih =>
    cases c with
    | zero =>
      rw [List.getD_cons_zero] at hg
      subst hg
      rw [List.set_cons_zero, pendM_cons, pendM_cons, ← Multiset.cons_coe,
        ← Multiset.singleton_add]
      abel
    | succ c =>
      rw [List.getD_cons_succ] at hg
      rw [List.set_cons_succ, pendM_cons, pendM_cons, add_assoc, ih c hg]

/-- Every chunk with a pending particle has a representative on the queue. -/
def RepOK (pq : List MergeElement) (pending : List (List Particle)) : Prop :=
  ∀ c p ps, pending.getD c [] = p :: ps → ∃ e ∈ pq, e.chunk_id = c

/-- As `RepOK`, and the representative's key is at most the pending head's. -/
def RepLe (pq : List MergeElement) (pending : List (List Particle)) : Prop :=
  ∀ c p ps, pending.getD c [] = p :: ps →
    ∃ e ∈ pq, e.chunk_id = c ∧ e.r2 ≤ p.r2

theorem repOK_tail (top : MergeElement) (rest : List MergeElement)
    (pending : List (List Particle))
    (hnil : pending.getD top.chunk_id [] = [])
    (h : RepOK (top :: rest) pending) : RepOK rest pending := by
  intro c p ps hg
  rcases h c p ps hg with ⟨e, he, hce⟩
  rcases List.mem_cons.mp he with rfl | he
  · rw [hce, hg] at hnil
    exact List.noConfusion hnil
  · exact ⟨e, he, hce⟩

theorem repLe_tail (top : MergeElement) (rest : List MergeElement)
    (pending : List (List Particle))
    (hnil : pending.getD top.chunk_id [] = [])
    (h : RepLe (top :: rest) pending) : RepLe rest pending := by
  intro c p ps hg
  rcases h c p ps hg with ⟨e, he, hce, hle⟩
  rcases List.mem_cons.mp he with rfl | he
  · rw [hce, hg] at hnil
    exact List.noConfusion hnil
  · exact ⟨e, he, hce, hle⟩

theorem repOK_push (top : MergeElement) (rest : List MergeElement)
    (pending : List (List Particle)) (p : Particle) (ps : List Particle)
    (hp : pending.getD top.chunk_id [] = p :: ps)
    (h : RepOK (top :: rest) pending) :
    RepOK (insKey meKey ⟨p.r2, p, top.chunk_id⟩ rest)
      (pending.set top.chunk_id ps) := by
  intro c q qs hg
  by_cases hc : c = top.chunk_id
  · subst hc
    exact ⟨⟨p.r2, p, top.chunk_id⟩, (mem_insKey _ _ _ _).mpr (Or.inl rfl), rfl⟩
  · rw [getD_set_ne _ _ _ _ _ hc] at hg
    rcases h c q qs hg with ⟨e, he, hce⟩
    rcases List.mem_cons.mp he with rfl | he
    · exact absurd hce.symm hc
    · exact ⟨e, (mem_insKey _ _ _ _).mpr (Or.inr he), hce⟩

theorem repLe_push (top : MergeElement) (rest : List MergeElement)
    (pending : List (List Particle)) (p : Particle) (ps : List Particle)
    (hp : pending.getD top.chunk_id [] = p :: ps)
    (hpend : ∀ l ∈ pending, KSorted Particle.r2 l)
    (h : RepLe (top :: rest) pending) :
    RepLe (insKey meKey ⟨p.r2, p, top.chunk_id⟩ rest)
      (pending.set top.chunk_id ps) := by
  intro c q qs hg
  by_cases hc : c = top.chunk_id
  · subst hc
    rw [getD_set_self _ _ _ _ (getD_lt_of_ne_nil _ _ _ _ hp)] at hg
    refine ⟨⟨p.r2, p, top.chunk_id⟩, (mem_insKey _ _ _ _).mpr (Or.inl rfl),
      rfl, ?_⟩
    have hs := hpend (pending.getD top.chunk_id [])
      (getD_mem_of_lt pending top.chunk_id []
        (getD_lt_of_ne_nil pending top.chunk_id p ps hp))
    rw [hp, hg] at hs
    simp only [KSorted, List.sorted_cons] at hs
    exact hs.1 q (List.mem_cons_self q qs)
  · rw [getD_set_ne _ _ _ _ _ hc] at hg
    rcases h c q qs hg with ⟨e, he, hce, hle⟩
    rcases List.mem_cons.mp he with rfl | he
    · exact absurd hce.symm hc
    · exact ⟨e, (mem_insKey _ _ _ _).mpr (Or.inr he), hce, hle⟩

theorem mergeLoop_cons_nil (top : MergeElement) (rest : List MergeElement)
    (pending : List (List Particle))
    (hp : pending.getD top.chunk_id [] = []) :
    mergeLoop (top :: rest) pending = top.part :: mergeLoop rest pending := by
  have h0 := mergeLoop.eq_def (top :: rest) pending
  simp only at h0
  split at h0
  · exact h0
  · next heq =>
      rw [hp] at heq
      exact List.noConfusion heq

theorem mergeLoop_cons_cons (top : MergeElement) (rest : List MergeElement)
    (pending : List (List Particle)) (p : Particle) (ps : List Particle)
    (hp : pending.getD top.chunk_id [] = p :: ps) :
    mergeLoop (top :: rest) pending
      = top.part ::
          mergeLoop (insKey meKey ⟨p.r2, p, top.chunk_id⟩ rest)
            (pending.set top.chunk_id ps) := by
  have h0 := mergeLoop.eq_def (top :: rest) pending
  simp only at h0
  split at h0
  · next heq =>
      rw [hp] at heq
      exact List.noConfusion heq
  · next q qs heq =>
      rw [hp] at heq
      injection heq with h1 h2
      subst h1
      subst h2
      exact h0

theorem mergeLoop_multiset (pq : List MergeElement)
    (pending : List (List Particle)) (h : RepOK pq pending) :
    (↑(mergeLoop pq pending) : Multiset Particle)
      = ↑(pq.map MergeElement.part) + pendM pending := by
  induction pq, pending using mergeLoop.induct with
  | case1 pending =>
    have hz : pendM pending = 0 := by
      rw [Multiset.eq_zero_iff_forall_not_mem]
      intro y hy
      rcases (mem_pendM y pending).mp hy with ⟨l, hl, hyl⟩
      rcases exists_getD_of_mem pending l [] hl with ⟨c, _, hg⟩
      cases l with
      | nil => simp at hyl
      | cons p ps =>
        rcases h c p ps hg with ⟨e, he, _⟩
        simp at he
    simp [mergeLoop, hz]
  | case2 top rest pending hp ih =>
    rw [mergeLoop_cons_nil top rest pending hp]
    have h' := repOK_tail top rest pending hp h
    rw [← Multiset.cons_coe, ih h', List.map_cons, ← Multiset.cons_coe]
    rw [← Multiset.singleton_add, ← Multiset.singleton_add]
    abel
  | case3 top rest pending p ps hp ih =>
    rw [mergeLoop_cons_cons top rest pending p ps hp]
    have h' := repOK_push top rest pending p ps hp h
    rw [← Multiset.cons_coe, ih h']
    have hmap : (↑((insKey meKey ⟨p.r2, p, top.chunk_id⟩ rest).map
        MergeElement.part) : Multiset Particle)
        = {p} + ↑(rest.map MergeElement.part) := by
      rw [Multiset.coe_eq_coe.mpr ((insKey_perm meKey _ rest).map
        MergeElement.part), List.map_cons, ← Multiset.cons_coe,
        ← Multiset.singleton_add]
    rw [hmap, List.map_cons, ← Multiset.cons_coe,
      ← pendM_set pending top.chunk_id p ps hp]
    rw [← Multiset.singleton_add, ← Multiset.singleton_add]
    abel

theorem mergeLoop_bound (b : ℚ) (pq : List MergeElement)
    (pending : List (List Particle))
    (h : RepOK pq pending)
    (hq : ∀ e ∈ pq, b ≤ e.r2)
    (h4 : ∀ e ∈ pq, e.r2 = e.part.r2)
    (hpend : ∀ l ∈ pending, ∀ y ∈ l, b ≤ y.r2) :
    ∀ y ∈ mergeLoop pq pending, b ≤ y.r2 := by
  intro y hy
  have hmem : y ∈ (↑(pq.map MergeElement.part) + pendM pending :
      Multiset Particle) := by
    rw [← mergeLoop_multiset pq pending h]
    exact Multiset.mem_coe.mpr hy
  rcases Multiset.mem_add.mp hmem with hm | hm
  · rcases List.mem_map.mp (Multiset.mem_coe.mp hm) with ⟨e, he, rfl⟩
    rw [← h4 e he]
    exact hq e he
  · rcases (mem_pendM _ _).mp hm with ⟨l, hl, hyl⟩
    exact hpend l hl y hyl

theorem pend_lb (top : MergeElement) (rest : List MergeElement)
    (pending : List (List Particle))
    (h1 : KSorted meKey (top :: rest))
    (h2 : ∀ l ∈ pending, KSorted Particle.r2 l)
    (h3 : RepLe (top :: rest) pending) :
    ∀ l ∈ pending, ∀ y ∈ l, top.r2 ≤ y.r2 := by
  intro l hl y hyl
  rcases exists_getD_of_mem pending l [] hl with ⟨c, _, hg⟩
  cases l with
  | nil => simp at hyl
  | cons p ps =>
    rcases h3 c p ps hg with ⟨e, he, _, hle⟩
    have htop_e : top.r2 ≤ e.r2 := by
      rcases List.mem_cons.mp he with rfl | he
      · exact le_refl _
      · simp only [KSorted, List.sorted_cons] at h1
        exact h1.1 e he
    have hsorted := h2 _ hl
    simp only [KSorted, List.sorted_cons] at hsorted
    rcases List.mem_cons.mp hyl with rfl | hyl
    · exact le_trans htop_e hle
    · exact le_trans (le_trans htop_e hle) (hsorted.1 y hyl)

theorem repLe_repOK (pq : List MergeElement) (pending : List (List Particle))
    (h : RepLe pq pending) : RepOK pq pending := by
  intro c p ps hg
  rcases h c p ps hg with ⟨e, he, hce, _⟩
  exact ⟨e, he, hce⟩

theorem mergeLoop_sorted (pq : List MergeElement)
    (pending : List (List Particle))
    (h1 : KSorted meKey pq)
    (h2 : ∀ l ∈ pending, KSorted Particle.r2 l)
    (h3 : RepLe pq pending)
    (h4 : ∀ e ∈ pq, e.r2 = e.part.r2) :
    KSorted Particle.r2 (mergeLoop pq pending) := by
  induction pq, pending using mergeLoop.induct with
  | case1 pending => simp [mergeLoop, KSorted]
  | case2 top rest pending hp ih =>
    rw [mergeLoop_cons_nil top rest pending hp]
    simp only [KSorted, List.sorted_cons] at h1
    have hbound : ∀ y ∈ mergeLoop rest pending, top.part.r2 ≤ y.r2 := by
      have hb := mergeLoop_bound top.r2 rest pending
        (repOK_tail top rest pending hp (repLe_repOK _ _ h3))
        h1.1
        (fun e he => h4 e (List.mem_cons_of_mem top he))
        (pend_lb top rest pending
          (by simp only [KSorted, List.sorted_cons]; exact h1) h2 h3)
      rw [← h4 top (List.mem_cons_self top rest)]
      exact hb
    simp only [KSorted, List.sorted_cons]
    exact ⟨hbound, ih h1.2 h2 (repLe_tail top rest pending hp h3)
      (fun e he => h4 e (List.mem_cons_of_mem top he))⟩
  | case3 top rest pending p ps hp ih =>
    rw [mergeLoop_cons_cons top rest pending p ps hp]
    simp only [KSorted, List.sorted_cons] at h1
    have htop_p : top.r2 ≤ p.r2 := by
      rcases h3 top.chunk_id p ps hp with ⟨e, he, _, hle⟩
      rcases List.mem_cons.mp he with rfl | he
      · exact hle
      · exact le_trans (h1.1 e he) hle
    have hq' : ∀ e ∈ insKey meKey ⟨p.r2, p, top.chunk_id⟩ rest,
        top.r2 ≤ e.r2 := by
      intro e he
      rcases (mem_insKey _ _ _ _).mp he with rfl | he
      · exact htop_p
      · exact h1.1 e he
    have h2' : ∀ l ∈ pending.set top.chunk_id ps, KSorted Particle.r2 l := by
      intro l hl
      rcases mem_of_mem_set pending top.chunk_id ps l hl with hlp | hl
      · rw [hlp]
        have hs := h2 (pending.getD top.chunk_id [])
          (getD_mem_of_lt pending top.chunk_id []
            (getD_lt_of_ne_nil pending top.chunk_id p ps hp))
        rw [hp] at hs
        simp only [KSorted, List.sorted_cons] at hs
        exact hs.2
      · exact h2 l hl
    have h4' : ∀ e ∈ insKey meKey ⟨p.r2, p, top.chunk_id⟩ rest,
        e.r2 = e.part.r2 := by
      intro e he
      rcases (mem_insKey _ _ _ _).mp he with rfl | he
      · rfl
      · exact h4 e (List.mem_cons_of_mem top he)
    have h3' := repLe_push top rest pending p ps hp h2 h3
    have hpend' : ∀ l ∈ pending.set top.chunk_id ps, ∀ y ∈ l,
        top.r2 ≤ y.r2 := by
      intro l hl y hyl
      rcases mem_of_mem_set pending top.chunk_id ps l hl with hlp | hl
      · rw [hlp] at hyl
        have := pend_lb top rest pending
          (by simp only [KSorted, List.sorted_cons]; exact h1) h2 h3
          (pending.getD top.chunk_id [])
          (getD_mem_of_lt pending top.chunk_id []
            (getD_lt_of_ne_nil pending top.chunk_id p ps hp))
        rw [hp] at this
        exact this y (List.mem_cons_of_mem p hyl)
      · exact pend_lb top rest pending
          (by simp only [KSorted, List.sorted_cons]; exact h1) h2 h3 l hl y hyl
    have hbound : ∀ y ∈ mergeLoop (insKey meKey ⟨p.r2, p, top.chunk_id⟩ rest)
        (pending.set top.chunk_id ps), top.part.r2 ≤ y.r2 := by
      have hb := mergeLoop_bound top.r2 _ _
        (repLe_repOK _ _ h3') hq' h4' hpend'
      rw [← h4 top (List.mem_cons_self top rest)]
      exact hb
    simp only [KSorted, List.sorted_cons]
    exact ⟨hbound, ih (insKey_sorted meKey _ rest h1.2) h2' h3' h4'⟩

theorem initQueueGo_mono (chunks : List (List Particle)) (c0 : ℕ)
    (q : List MergeElement) (e : MergeElement) (he : e ∈ q) :
    e ∈ initQueueGo c0 q chunks := by
  induction chunks generalizing c0 q with
  | nil => exact he
  | cons l rest ih =>
    cases l with
    | nil => exact ih (c0 + 1) q he
    | cons p t =>
      exact ih (c0 + 1) _ ((mem_insKey _ _ _ _).mpr (Or.inr he))

theorem initQueueGo_sorted (chunks : List (List Particle)) (c0 : ℕ)
    (q : List MergeElement) (h : KSorted meKey q) :
    KSorted meKey (initQueueGo c0 q chunks) := by
  induction chunks generalizing c0 q with
  | nil => exact h
  | cons l rest ih =>
    cases l with
    | nil => exact ih (c0 + 1) q h
    | cons p t => exact ih (c0 + 1) _ (insKey_sorted meKey _ q h)

theorem initQueueGo_key (chunks : List (List Particle)) (c0 : ℕ)
    (q : List MergeElement) (h : ∀ e ∈ q, e.r2 = e.part.r2) :
    ∀ e ∈ initQueueGo c0 q chunks, e.r2 = e.part.r2 := by
  induction chunks generalizing c0 q with
  | nil => exact h
  | cons l rest ih =>
    cases l with
    | nil => exact ih (c0 + 1) q h
    | cons p t =>
      refine ih (c0 + 1) _ ?_
      intro e he
      rcases (mem_insKey _ _ _ _).mp he with rfl | he
      · rfl
      · exact h e he

theorem initQueueGo_head (chunks : List (List Particle)) (c0 : ℕ)
    (q : List MergeElement) (c : ℕ) (p : Particle) (t : List Particle)
    (hg : chunks.getD c [] = p :: t) :
    (⟨p.r2, p, c0 + c⟩ : MergeElement) ∈ initQueueGo c0 q chunks := by
  induction chunks generalizing c0 q c with
  | nil => exact absurd hg (by simp [List.getD])
  | cons l rest ih =>
    cases c with
    | zero =>
      rw [List.getD_cons_zero] at hg
      subst hg
      exact initQueueGo_mono rest (c0 + 1) _ _
        ((mem_insKey _ _ _ _).mpr (Or.inl rfl))
    | succ c =>
      rw [List.getD_cons_succ] at hg
      have harith : c0 + (c + 1) = (c0 + 1) + c := by omega
      rw [harith]
      cases l with
      | nil => exact ih (c0 + 1) q c hg
      | cons p0 t0 => exact ih (c0 + 1) _ c hg

theorem initQueueGo_multiset (chunks : List (List Particle)) (c0 : ℕ)
    (q : List MergeElement) :
    (↑((initQueueGo c0 q chunks).map MergeElement.part) : Multiset Particle)
      = ↑(q.map MergeElement.part) + ↑(chunks.filterMap List.head?) := by
  induction chunks generalizing c0 q with
  | nil => simp [initQueueGo]
  | cons l rest ih =>
    cases l with
    | nil =>
      rw [show initQueueGo c0 q ([] :: rest) = initQueueGo (c0 + 1) q rest
        from rfl]
      rw [ih (c0 + 1) q]
      simp [List.filterMap_cons]
    | cons p t =>
      rw [show initQueueGo c0 q ((p :: t) :: rest)
        = initQueueGo (c0 + 1) (insKey meKey ⟨p.r2, p, c0⟩ q) rest from rfl]
      rw [ih (c0 + 1) _]
      have hmap : (↑((insKey meKey ⟨p.r2, p, c0⟩ q).map MergeElement.part) :
          Multiset Particle) = {p} + ↑(q.map MergeElement.part) := by
        rw [Multiset.coe_eq_coe.mpr ((insKey_perm meKey _ q).map
          MergeElement.part), List.map_cons, ← Multiset.cons_coe,
          ← Multiset.singleton_add]
      rw [hmap]
      simp only [List.filterMap_cons, List.head?]
      rw [← Multiset.cons_coe, ← Multiset.singleton_add]
      abel

theorem getD_map_tail (L : List (List Particle)) (c : ℕ) :
    (L.map List.tail).getD c [] = (L.getD c []).tail :=
  List.getD_map L [] List.tail

theorem kwayMerge_repOK (chunks : List (List Particle)) :
    RepOK (initQueueGo 0 [] chunks) (chunks.map List.tail) := by
  intro c p ps hg
  rw [getD_map_tail] at hg
  cases hck : chunks.getD c [] with
  | nil => rw [hck] at hg; exact List.noConfusion hg
  | cons p0 t =>
    rw [hck] at hg
    simp only [List.tail_cons] at hg
    refine ⟨⟨p0.r2, p0, 0 + c⟩, initQueueGo_head chunks 0 [] c p0 t hck, ?_⟩
    simp

theorem kwayMerge_repLe (chunks : List (List Particle))
    (h : ∀ l ∈ chunks, KSorted Particle.r2 l) :
    RepLe (initQueueGo 0 [] chunks) (chunks.map List.tail) := by
  intro c p ps hg
  rw [getD_map_tail] at hg
  cases hck : chunks.getD c [] with
  | nil => rw [hck] at hg; exact List.noConfusion hg
  | cons p0 t =>
    rw [hck] at hg
    simp only [List.tail_cons] at hg
    subst hg
    refine ⟨⟨p0.r2, p0, 0 + c⟩, initQueueGo_head chunks 0 [] c p0 (p :: ps) hck,
      by simp, ?_⟩
    have hc : c < chunks.length := getD_lt_of_ne_nil chunks c p0 (p :: ps) hck
    have hs := h (chunks.getD c []) (getD_mem_of_lt chunks c [] hc)
    rw [hck] at hs
    simp only [KSorted, List.sorted_cons] at hs
    exact hs.1 p (List.mem_cons_self p ps)

theorem heads_tails_flatten (chunks : List (List Particle)) :
    (↑(chunks.filterMap List.head?) : Multiset Particle)
      + pendM (chunks.map List.tail) = ↑chunks.flatten := by
  induction chunks with
  | nil => simp [pendM_nil]
  | cons l rest ih =>
    cases l with
    | nil =>
      simp only [List.filterMap_cons, List.head?, List.map_cons,
        List.tail_nil, List.flatten_cons, List.nil_append, pendM_cons]
      rw [← ih]
      rw [show ((([] : List Particle) : Multiset Particle)) = 0 from rfl]
      abel
    | cons p t =>
      simp only [List.filterMap_cons, List.head?, List.map_cons,
        List.tail_cons, List.flatten_cons, pendM_cons, List.cons_append,
        ← Multiset.cons_coe, ← Multiset.coe_add, ← Multiset.singleton_add]
      rw [← ih]
      abel

theorem kwayMerge_multiset (chunks : List (List Particle)) :
    (↑(kwayMerge chunks) : Multiset Particle) = ↑chunks.flatten := by
  rw [kwayMerge, mergeLoop_multiset _ _ (kwayMerge_repOK chunks),
    initQueueGo_multiset chunks 0 []]
  simp only [List.map_nil]
  rw [show ((([] : List Particle) : Multiset Particle)) = 0 from rfl,
    zero_add]
  exact heads_tails_flatten chunks

theorem kwayMerge_perm (chunks : List (List Particle)) :
    (kwayMerge chunks).Perm chunks.flatten :=
  Multiset.coe_eq_coe.mp (kwayMerge_multiset chunks)

theorem KSorted_tail {α : Type} (k : α → ℚ) (l : List α)
    (h : KSorted k l) : KSorted k l.tail := by
  cases l with
  | nil => exact h
  | cons a t =>
    simp only [KSorted, List.sorted_cons] at h
    exact h.2

theorem kwayMerge_sorted (chunks : List (List Particle))
    (h : ∀ l ∈ chunks, KSorted Particle.r2 l) :
    KSorted Particle.r2 (kwayMerge chunks) := by
  rw [kwayMerge]
  refine mergeLoop_sorted _ _ ?_ ?_ ?_ ?_
  · exact initQueueGo_sorted chunks 0 [] (by simp [KSorted])
  · intro l hl
    rcases List.mem_map.mp hl with ⟨l', hl', rfl⟩
    exact KSorted_tail Particle.r2 l' (h l' hl')
  · exact kwayMerge_repLe chunks h
  · exact initQueueGo_key chunks 0 [] (by simp)

/-! ### ParticleSystem and the radial field update

`updateElectricFieldParallel` (src/sparc_mpi/src/core/update_electric_field.cpp)
reads `q` and `r2`, writes `Er`.  `MPI_Exscan` with `MPI_SUM` delivers to rank
`r` the sum of the `local_sum` values of ranks `0..r-1`; the source overwrites
the undefined rank-0 value with `0`. -/

/-- Per-rank state: the nine arrays (as `particles`) and the scalars of
`ParticleSystem.h` (`iqom`, `n_total`); `n_particles` is `particles.length`. -/
structure ParticleSystem where
  particles : List Particle
  iqom : ℚ
  n_total : ℤ
deriving DecidableEq, Inhabited

/-- Sum of local charges (step 1 of updateElectricFieldParallel). -/
def localChargeSum (l : List Particle) : ℚ := (l.map Particle.q).sum

/-- The 1e-30 zero-radius guard of updateElectricFieldParallel. -/
def epsR2 : ℚ := 1 / 10 ^ 30

/-- Step 3 of updateElectricFieldParallel: the local sweep with running
cumulative charge `c` (initialised to the exscan prefix). -/
def sweepEr (c : ℚ) : List Particle → List Particle
  | [] => []
  | p :: l =>
    { p with Er := if epsR2 < p.r2 then (c + p.q) / p.r2 else 0 } ::
      sweepEr (c + p.q) l

/-- The whole-world field update, threading the exscan prefix. -/
def updateEFgo (pre : ℚ) : List ParticleSystem → List ParticleSystem
  | [] => []
  | s :: w =>
    { s with particles := sweepEr pre s.particles } ::
      updateEFgo (pre + localChargeSum s.particles) w

/-- updateElectricFieldParallel over the world (rank 0 prefix is 0). -/
def updateElectricFieldParallel (w : List ParticleSystem) :
    List ParticleSystem :=
  updateEFgo 0 w

/-- getMaxRadiusSquared (ParticleSystem.cpp): running maximum starting from
`max_r2 = 0.0`. -/
def getMaxRadiusSquared (s : ParticleSystem) : ℚ :=
  s.particles.foldl (fun m p => if m < p.r2 then p.r2 else m) 0

/-- The spec's `max_r2_local`: the maximum of `r2`, or bottom (for the spec's
minus infinity) when the shell is empty.  Stated from the spec's words, for
comparison with `getMaxRadiusSquared`. -/
def maxR2Spec (s : ParticleSystem) : WithBot ℚ :=
  (s.particles.map Particle.r2).maximum

/-- computeSquareRadius on one record: rebuild the `r2` cache from positions. -/
def canonR2 (p : Particle) : Particle :=
  { p with r2 := p.x * p.x + p.y * p.y + p.z * p.z }

/-- computeSquareRadius (ParticleSystem.cpp). -/
def computeSquareRadius (l : List Particle) : List Particle := l.map canonR2

/-- I2 of the spec: shells are radially ordered across ranks. -/
def WorldShellOrder (w : List (List Particle)) : Prop :=
  ∀ p q, p < q → q < w.length →
    ∀ a ∈ w.getD p [], ∀ b ∈ w.getD q [], a.r2 ≤ b.r2

/-- I3 of the spec: the `r2` cache agrees with the positions. -/
def CacheConsistent (l : List Particle) : Prop :=
  ∀ p ∈ l, p.r2 = p.x * p.x + p.y * p.y + p.z * p.z

instance (l : List Particle) : Decidable (CacheConsistent l) := by
  unfold CacheConsistent
  infer_instance

/-- Exscan prefix of rank `r`: total charge of the lower-ranked shells. -/
def preCharge (w : List ParticleSystem) (r : ℕ) : ℚ :=
  ((w.take r).map (fun s => localChargeSum s.particles)).sum

/-- The claim's enclosed charge at rank `r`, index `i`: charges of particles
on lower-ranked shells and of this shell up to index `i`, restricted to those
with `r2` at most `r2[i]`. -/
def QencAt (w : List ParticleSystem) (r i : ℕ) : ℚ :=
  ((((w.take r).map (fun s => s.particles)).flatten
      ++ ((w.getD r default).particles.take (i + 1))).filter
      (fun p => decide (p.r2 ≤ ((w.getD r default).particles.getD i
        default).r2))).map Particle.q |>.sum

/-! ### Lemmas about the field update -/

theorem updateEFgo_length (pre : ℚ) (w : List ParticleSystem) :
    (updateEFgo pre w).length = w.length := by
  induction w generalizing pre with
  | nil => rfl
  | cons s t ih => simp [updateEFgo, ih]

theorem updateEFgo_getD (w : List ParticleSystem) (pre : ℚ) (r : ℕ)
    (hr : r < w.length) :
    (updateEFgo pre w).getD r default
      = { w.getD r default with
          particles := sweepEr (pre + preCharge w r)
            (w.getD r default).particles } := by
  induction w generalizing pre r with
  | nil => simp at hr
  | cons s t ih =>
    cases r with
    | zero =>
      simp only [updateEFgo, List.getD_cons_zero, preCharge, List.take_zero,
        List.map_nil, List.sum_nil, add_zero]
    | succ r =>
      simp only [updateEFgo, List.getD_cons_succ]
      rw [ih (pre + localChargeSum s.particles) r (by simpa using hr)]
      have hpc : pre + localChargeSum s.particles + preCharge t r
          = pre + preCharge (s :: t) (r + 1) := by
        simp only [preCharge, List.take_succ_cons, List.map_cons,
          List.sum_cons]
        ring
      rw [hpc]

theorem sweepEr_getD (l : List Particle) (c : ℚ) (i : ℕ)
    (hi : i < l.length) :
    (sweepEr c l).getD i default
      = { l.getD i default with
          Er := if epsR2 < (l.getD i default).r2
            then (c + localChargeSum (l.take (i + 1)))
              / (l.getD i default).r2
            else 0 } := by
  induction l generalizing c i with
  | nil => simp at hi
  | cons p t ih =>
    cases i with
    | zero =>
      simp only [sweepEr, List.getD_cons_zero, List.take_succ_cons,
        List.take_zero, localChargeSum, List.map_cons, List.map_nil,
        List.sum_cons, List.sum_nil, add_zero]
    | succ i =>
      simp only [sweepEr, List.getD_cons_succ, List.take_succ_cons]
      rw [ih (c + p.q) i (by simpa using hi)]
      have hsum : c + p.q + localChargeSum (t.take (i + 1))
          = c + localChargeSum (p :: t.take (i + 1)) := by
        simp only [localChargeSum, List.map_cons, List.sum_cons]
        ring
      rw [hsum]

theorem localChargeSum_sweepEr (c : ℚ) (l : List Particle) :
    localChargeSum (sweepEr c l) = localChargeSum l := by
  induction l generalizing c with
  | nil => rfl
  | cons p t ih => simp [sweepEr, localChargeSum, List.map_cons] at *; exact ih _

theorem sweepEr_sweepEr (c : ℚ) (l : List Particle) :
    sweepEr c (sweepEr c l) = sweepEr c l := by
  induction l generalizing c with
  | nil => rfl
  | cons p t ih => simp only [sweepEr]; rw [ih (c + p.q)]

theorem KSorted_take_le (l : List Particle) (i : ℕ) (hi : i < l.length)
    (h : KSorted Particle.r2 l) :
    ∀ a ∈ l.take (i + 1), a.r2 ≤ (l.getD i default).r2 := by
  induction l generalizing i with
  | nil => simp at hi
  | cons p t ih =>
    simp only [KSorted, List.sorted_cons] at h
    cases i with
    | zero =>
      intro a ha
      simp only [List.take_succ_cons, List.take_zero] at ha
      rcases List.mem_cons.mp ha with rfl | ha
      · simp [List.getD_cons_zero]
      · simp at ha
    | succ i =>
      intro a ha
      simp only [List.take_succ_cons] at ha
      rw [List.getD_cons_succ]
      rcases List.mem_cons.mp ha with rfl | ha
      · exact h.1 _ (getD_mem_of_lt t i default (by simpa using hi))
      · exact ih i (by simpa using hi) h.2 a ha

theorem getD_take {α : Type} (L : List α) (r c : ℕ) (d : α) (h : c < r) :
    (L.take r).getD c d = L.getD c d := by
  induction L generalizing r c with
  | nil => simp
  | cons a t ih =>
    cases r with
    | zero => simp at h
    | succ r =>
      cases c with
      | zero => simp [List.getD]
      | succ c =>
        simp only [List.take_succ_cons, List.getD_cons_succ]
        exact ih r c (by omega)

theorem flatten_charge_sum (L : List ParticleSystem) :
    (((L.map (fun s => s.particles)).flatten).map Particle.q).sum
      = (L.map (fun s => localChargeSum s.particles)).sum := by
  induction L with
  | nil => rfl
  | cons s t ih =>
    simp only [List.map_cons, List.flatten_cons, List.map_append,
      List.sum_append, List.sum_cons, ih, localChargeSum]

theorem getD_map_particles (w : List ParticleSystem) (c : ℕ) :
    (w.map ParticleSystem.particles).getD c []
      = (w.getD c default).particles :=
  List.getD_map w default ParticleSystem.particles

theorem QencAt_eq_prefix (w : List ParticleSystem) (r i : ℕ)
    (hI1 : ∀ s ∈ w, KSorted Particle.r2 s.particles)
    (hI2 : WorldShellOrder (w.map ParticleSystem.particles))
    (hr : r < w.length)
    (hi : i < (w.getD r default).particles.length) :
    QencAt w r i
      = preCharge w r
        + localChargeSum ((w.getD r default).particles.take (i + 1)) := by
  have hcut : (w.getD r default).particles.getD i default
      ∈ (w.getD r default).particles := getD_mem_of_lt _ _ _ hi
  have hall : ∀ p ∈ ((w.take r).map (fun s => s.particles)).flatten
      ++ ((w.getD r default).particles.take (i + 1)),
      p.r2 ≤ ((w.getD r default).particles.getD i default).r2 := by
    intro p hp
    rcases List.mem_append.mp hp with hp | hp
    · rcases List.mem_flatten.mp hp with ⟨l, hl, hpl⟩
      rcases List.mem_map.mp hl with ⟨s, hs, rfl⟩
      rcases exists_getD_of_mem (w.take r) s default hs with ⟨c, hc, hg⟩
      rw [List.length_take] at hc
      have hcr : c < r := lt_of_lt_of_le hc (min_le_left r w.length)
      rw [getD_take w r c default hcr] at hg
      refine hI2 c r hcr (by simpa using hr) p ?_
        ((w.getD r default).particles.getD i default) ?_
      · rw [getD_map_particles, hg]
        exact hpl
      · rw [getD_map_particles]
        exact hcut
    · exact KSorted_take_le (w.getD r default).particles i hi
        (hI1 _ (getD_mem_of_lt w r default hr)) p hp
  have hfilter : (((w.take r).map (fun s => s.particles)).flatten
      ++ ((w.getD r default).particles.take (i + 1))).filter
      (fun p => decide (p.r2 ≤ ((w.getD r default).particles.getD i
        default).r2))
      = ((w.take r).map (fun s => s.particles)).flatten
        ++ ((w.getD r default).particles.take (i + 1)) := by
    rw [List.filter_eq_self]
    intro a ha
    exact decide_eq_true (hall a ha)
  rw [QencAt, hfilter, List.map_append, List.sum_append]
  congr 1
  have h1 := flatten_charge_sum (w.take r)
  rw [h1]
  rfl

/-- C1: after `updateElectricFieldParallel`, given the shell invariants I1,
I2, I3 on entry, every local particle with `r2 > 1e-30` has
`Er = Q_enc / r2`, where `Q_enc` is the sum of charges of particles on this
and lower-ranked shells (own shell up to index `i`) whose `r2` is at most
`r2[i]`; particles with `r2 ≤ 1e-30` get `Er = 0`. -/
theorem updateElectricFieldParallel_spec (w : List ParticleSystem) (r i : ℕ)
    (hI1 : ∀ s ∈ w, KSorted Particle.r2 s.particles)
    (hI2 : WorldShellOrder (w.map ParticleSystem.particles))
    (hI3 : ∀ s ∈ w, CacheConsistent s.particles)
    (hr : r < w.length)
    (hi : i < (w.getD r default).particles.length) :
    (epsR2 < ((w.getD r default).particles.getD i default).r2 →
      (((updateElectricFieldParallel w).getD r default).particles.getD i
          default).Er
        = QencAt w r i
            / ((w.getD r default).particles.getD i default).r2) ∧
    (((w.getD r default).particles.getD i default).r2 ≤ epsR2 →
      (((updateElectricFieldParallel w).getD r default).particles.getD i
          default).Er = 0) := by
  have hup : ((updateElectricFieldParallel w).getD r default).particles
      = sweepEr (0 + preCharge w r) (w.getD r default).particles := by
    rw [updateElectricFieldParallel, updateEFgo_getD w 0 r hr]
  have hsw := sweepEr_getD (w.getD r default).particles
    (0 + preCharge w r) i hi
  have hq := QencAt_eq_prefix w r i hI1 hI2 hr hi
  constructor
  · intro hgt
    rw [hup, hsw]
    simp only [if_pos hgt]
    rw [hq]
    ring_nf
  · intro hle
    rw [hup, hsw]
    simp only [if_neg (not_lt.mpr hle)]

/-- Idempotence of the threaded update (helper for the claim below). -/
theorem updateEFgo_idem (w : List ParticleSystem) (pre : ℚ) :
    updateEFgo pre (updateEFgo pre w) = updateEFgo pre w := by
  induction w generalizing pre with
  | nil => rfl
  | cons s t ih =>
    simp only [updateEFgo, localChargeSum_sweepEr, sweepEr_sweepEr]
    rw [ih]

/-- C8: calling `updateElectricFieldParallel` twice in succession leaves
every rank's state identical to the state after calling it once. -/
theorem updateElectricFieldParallel_idem (w : List ParticleSystem) :
    updateElectricFieldParallel (updateElectricFieldParallel w)
      = updateElectricFieldParallel w :=
  updateEFgo_idem w 0

/-- All particle fields except `Er`. -/
def frameOf (p : Particle) : ℚ × ℚ × ℚ × ℚ × ℚ × ℚ × ℚ × ℚ :=
  (p.x, p.y, p.z, p.vx, p.vy, p.vz, p.q, p.r2)

theorem sweepEr_frame (c : ℚ) (l : List Particle) :
    (sweepEr c l).map frameOf = l.map frameOf := by
  induction l generalizing c with
  | nil => rfl
  | cons p t ih => simp only [sweepEr, List.map_cons, frameOf]; rw [ih]

theorem sweepEr_length (c : ℚ) (l : List Particle) :
    (sweepEr c l).length = l.length := by
  induction l generalizing c with
  | nil => rfl
  | cons p t ih => simp only [sweepEr, List.length_cons]; rw [ih]

/-- C10: `updateElectricFieldParallel` writes only `Er`: the world length,
the per-rank particle count, `iqom`, `n_total`, and the eight other particle
fields `x, y, z, vx, vy, vz, q, r2` are unchanged on every rank. -/
theorem updateElectricFieldParallel_frame (w : List ParticleSystem) (r : ℕ) :
    (updateElectricFieldParallel w).length = w.length ∧
    ((updateElectricFieldParallel w).getD r default).iqom
      = (w.getD r default).iqom ∧
    ((updateElectricFieldParallel w).getD r default).n_total
      = (w.getD r default).n_total ∧
    ((updateElectricFieldParallel w).getD r default).particles.length
      = (w.getD r default).particles.length ∧
    ((updateElectricFieldParallel w).getD r default).particles.map frameOf
      = (w.getD r default).particles.map frameOf := by
  refine ⟨updateEFgo_length 0 w, ?_⟩
  by_cases hr : r < w.length
  · rw [updateElectricFieldParallel, updateEFgo_getD w 0 r hr]
    exact ⟨rfl, rfl, sweepEr_length _ _, sweepEr_frame _ _⟩
  · have h1 : (updateElectricFieldParallel w).getD r default = default := by
      apply List.getD_eq_default
      rw [updateElectricFieldParallel, updateEFgo_length]
      omega
    have h2 : w.getD r default = default :=
      List.getD_eq_default _ _ (by omega)
    rw [h1, h2]
    exact ⟨rfl, rfl, rfl, rfl⟩

/-! ### getMaxRadiusSquared -/

theorem getMax_foldl (l : List Particle) (a : ℚ) :
    (l.foldl (fun m p => if m < p.r2 then p.r2 else m) a = a ∨
      ∃ p ∈ l, l.foldl (fun m p => if m < p.r2 then p.r2 else m) a = p.r2) ∧
    a ≤ l.foldl (fun m p => if m < p.r2 then p.r2 else m) a ∧
    (∀ p ∈ l, p.r2 ≤ l.foldl (fun m p => if m < p.r2 then p.r2 else m) a) := by
  induction l generalizing a with
  | nil => exact ⟨Or.inl rfl, le_refl a, by simp⟩
  | cons p t ih =>
    simp only [List.foldl_cons]
    have hstep : a ≤ (if a < p.r2 then p.r2 else a)
        ∧ p.r2 ≤ (if a < p.r2 then p.r2 else a) := by
      by_cases hc : a < p.r2
      · rw [if_pos hc]
        exact ⟨le_of_lt hc, le_refl _⟩
      · rw [if_neg hc]
        exact ⟨le_refl a, le_of_not_lt hc⟩
    rcases ih (if a < p.r2 then p.r2 else a) with ⟨hcase, hle, hall⟩
    refine ⟨?_, le_trans hstep.1 hle, ?_⟩
    · rcases hcase with hcase | ⟨q, hq, hcase⟩
      · by_cases hc : a < p.r2
        · exact Or.inr ⟨p, List.mem_cons_self p t, hcase.trans (if_pos hc)⟩
        · exact Or.inl (hcase.trans (if_neg hc))
      · exact Or.inr ⟨q, List.mem_cons_of_mem p hq, hcase⟩
    · intro q hq
      rcases List.mem_cons.mp hq with rfl | hq
      · exact le_trans hstep.2 hle
      · exact hall q hq

/-- C7 counterexample world: an empty shell. -/
def emptyPS : ParticleSystem := ⟨[], 1, 0⟩

/-- C7, amended: on a shell whose `r2` values are nonnegative,
`getMaxRadiusSquared` returns the maximum of `r2` when the shell is
non-empty; on an empty shell it returns `0.0`, not minus infinity. -/
theorem getMaxRadiusSquared_amended (s : ParticleSystem)
    (h0 : ∀ p ∈ s.particles, 0 ≤ p.r2) :
    (s.particles = [] → getMaxRadiusSquared s = 0) ∧
    (s.particles ≠ [] →
      (∃ p ∈ s.particles, getMaxRadiusSquared s = p.r2) ∧
      (∀ p ∈ s.particles, p.r2 ≤ getMaxRadiusSquared s)) := by
  rcases getMax_foldl s.particles 0 with ⟨hcase, _, hall⟩
  constructor
  · intro hnil
    simp only [getMaxRadiusSquared, hnil, List.foldl_nil]
  · intro hne
    refine ⟨?_, hall⟩
    rcases hcase with hcase | hcase
    · rcases List.exists_mem_of_ne_nil s.particles hne with ⟨p, hp⟩
      refine ⟨p, hp, ?_⟩
      have h1 : p.r2 ≤ 0 := hcase ▸ hall p hp
      have h2 : p.r2 = 0 := le_antisymm h1 (h0 p hp)
      show s.particles.foldl (fun m p => if m < p.r2 then p.r2 else m) 0
        = p.r2
      rw [hcase, h2]
    · exact hcase

/-! ### The parallel sample sort (sort_particles.cpp)

World-level model of `sortParticlesParallel`: every rank executes the same
SPMD code, and every collective delivers a value that is a function of the
whole world, so the function below computes each rank's post-call shell from
the list of all shells.  The `n == 0 && size == 1` early return and the
`size == 1` short-circuit coincide with the general path restricted to one
rank (an empty shell sorts to itself). -/

/-- NUM_BINS of the histogram phase. -/
def NUM_BINS : ℕ := 1024

/-- The value of `std::numeric_limits<double>::max()` (so `lowest()` is its
negation), used as the identity of the min/max reductions on empty ranks;
equal to `2^1024 - 2^971`, computed in ℕ. -/
def DBL_MAX : ℚ := ((2 ^ 1024 - 2 ^ 971 : ℕ) : ℚ)

/-- Steps 1-2: recompute `r2` from positions, then sort locally by `r2`. -/
def localPhase (l : List Particle) : List Particle :=
  sortByKey Particle.r2 (computeSquareRadius l)

/-- Local `r2` minimum after the local sort (`ps.r2[0]`), DBL_MAX if empty. -/
def r2minLocal (l : List Particle) : ℚ :=
  match l with
  | [] => DBL_MAX
  | p :: _ => p.r2

/-- Local `r2` maximum (`ps.r2[n-1]`), `lowest()` if empty. -/
def r2maxLocal (l : List Particle) : ℚ :=
  match l.getLast? with
  | none => -DBL_MAX
  | some p => p.r2

/-- Allreduce MIN of the local minima. -/
def r2minGlobal (ls : List (List Particle)) : ℚ :=
  (ls.map r2minLocal).foldl min DBL_MAX

/-- Allreduce MAX of the local maxima (before widening). -/
def r2maxGlobal0 (ls : List (List Particle)) : ℚ :=
  (ls.map r2maxLocal).foldl max (-DBL_MAX)

/-- Degenerate-range widening: if `max - min < 1e-15` then `max := min + 1`. -/
def r2maxGlobal (ls : List (List Particle)) : ℚ :=
  if r2maxGlobal0 ls - r2minGlobal ls < 1 / 10 ^ 15
  then r2minGlobal ls + 1
  else r2maxGlobal0 ls

/-- Histogram bin width. -/
def binWidth (ls : List (List Particle)) : ℚ :=
  (r2maxGlobal ls - r2minGlobal ls) / (NUM_BINS : ℚ)

/-- Bin index of an `r2` value: `(int)((r2 - min)/width)` clamped to
`[0, NUM_BINS-1]`.  The quotient is nonnegative for in-range values, and the
clamp maps every negative truncation to 0, so C truncation and floor agree
after clamping. -/
def binOf (rmin bw v : ℚ) : ℕ :=
  (max 0 (min (⌊(v - rmin) / bw⌋) ((NUM_BINS : ℤ) - 1))).toNat

/-- Global count of particles falling in bin `b`. -/
def binCount (ls : List (List Particle)) (b : ℕ) : ℕ :=
  ls.flatten.countP
    (fun p => binOf (r2minGlobal ls) (binWidth ls) p.r2 == b)

/-- The bins `b, b+1, …, b+r-1` of the global histogram. -/
def histFrom (ls : List (List Particle)) (b : ℕ) : ℕ → List ℕ
  | 0 => []
  | r + 1 => binCount ls b :: histFrom ls (b + 1) r

/-- The global histogram (Allreduce SUM of the per-rank bin increments):
entry `b` counts the particles of all shells whose bin is `b`. -/
def globalHist (ls : List (List Particle)) : List ℕ :=
  histFrom ls 0 NUM_BINS

/-- `total`, the sum of the global histogram. -/
def histTotal (ls : List (List Particle)) : ℕ := (globalHist ls).sum

/-- `target_per_rank = (total + size - 1) / size` (ceiling division). -/
def targetPerRank (ls : List (List Particle)) (size : ℕ) : ℕ :=
  (histTotal ls + size - 1) / size

/-- The splitter scan: walk the bins accumulating `cumsum`; emit the upper
boundary of bin `b` when `cumsum` reaches the next multiple of the target;
stop once `size - 1` (= `smax`) splitters were emitted. -/
def splittersCore (rmin bw : ℚ) (target smax : ℕ) :
    List ℕ → ℕ → ℕ → List ℚ → List ℚ
  | [], _, _, acc => acc
  | h :: rest, b, cum, acc =>
    if smax ≤ acc.length then acc
    else
      if target * (acc.length + 1) ≤ cum + h
      then splittersCore rmin bw target smax rest (b + 1) (cum + h)
        (acc ++ [rmin + (b + 1) * bw])
      else splittersCore rmin bw target smax rest (b + 1) (cum + h) acc

/-- Emitted splitters, padded with the (widened) global max to `size - 1`. -/
def splittersOf (ls : List (List Particle)) (size : ℕ) : List ℚ :=
  let s := splittersCore (r2minGlobal ls) (binWidth ls)
    (targetPerRank ls size) (size - 1) (globalHist ls) 0 0 []
  s ++ List.replicate (size - 1 - s.length) (r2maxGlobal ls)

/-- Destination rank of an `r2` value: `std::lower_bound` over the sorted
splitter vector, i.e. the index of the first splitter that is `≥ r2`, and
`size - 1` (the vector length) when every splitter is below `r2`. -/
def destRank (spl : List ℚ) (v : ℚ) : ℕ :=
  spl.findIdx (fun s => decide (v ≤ s))

/-- The particles rank `src` sends to rank `d` (step 4), in local order. -/
def bucketOf (spl : List ℚ) (shell : List Particle) (d : ℕ) : List Particle :=
  shell.filter (fun p => destRank spl p.r2 == d)

/-- All shells after the local phase. -/
def lsOf (w : List (List Particle)) : List (List Particle) :=
  w.map localPhase

/-- The splitters every rank computes for world `w`. -/
def splOf (w : List (List Particle)) : List ℚ :=
  splittersOf (lsOf w) w.length

/-- The chunks rank `d` receives (steps 5-8): from each source rank in rank
order, that source's bucket for destination `d`. -/
def chunksAt (w : List (List Particle)) (d : ℕ) : List (List Particle) :=
  (lsOf w).map (fun shell => bucketOf (splOf w) shell d)

/-- The whole call: local sort, short-circuit for one rank, otherwise
histogram splitters, all-to-all exchange and per-rank k-way merge. -/
def sortParticlesParallel (w : List (List Particle)) :
    List (List Particle) :=
  if w.length ≤ 1 then lsOf w
  else (List.range w.length).map (fun d => kwayMerge (chunksAt w d))

/-- `send_counts` on rank `src` (steps 4-5). -/
def sendCounts (w : List (List Particle)) (src : ℕ) : List ℕ :=
  (List.range w.length).map
    (fun d => (bucketOf (splOf w) ((lsOf w).getD src []) d).length)

/-! ### The histogram total equals the global particle count -/

theorem countP_split_bin (l : List Particle) (f : Particle → ℕ) (b r : ℕ) :
    l.countP (fun p => f p == b)
      + l.countP (fun p => decide (b + 1 ≤ f p ∧ f p < (b + 1) + r))
    = l.countP (fun p => decide (b ≤ f p ∧ f p < b + (r + 1))) := by
  induction l with
  | nil => rfl
  | cons x t ih =>
    simp only [List.countP_cons]
    have hx : ((if (f x == b) = true then 1 else 0) : ℕ)
        + (if (decide (b + 1 ≤ f x ∧ f x < (b + 1) + r)) = true then 1 else 0)
        = if (decide (b ≤ f x ∧ f x < b + (r + 1))) = true then 1 else 0 := by
      simp only [beq_iff_eq, decide_eq_true_eq]
      by_cases h1 : f x = b
      · have h2 : ¬(b + 1 ≤ f x ∧ f x < (b + 1) + r) := by omega
        have h3 : b ≤ f x ∧ f x < b + (r + 1) := by omega
        simp [h1, h2, h3]
      · by_cases h2 : b + 1 ≤ f x ∧ f x < (b + 1) + r
        · have h3 : b ≤ f x ∧ f x < b + (r + 1) := by omega
          simp [h1, h2, h3]
        · have h3 : ¬(b ≤ f x ∧ f x < b + (r + 1)) := by omega
          simp [h1, h2, h3]
    omega

theorem histFrom_sum (ls : List (List Particle)) (b r : ℕ) :
    (histFrom ls b r).sum
      = ls.flatten.countP
          (fun p => decide (b ≤ binOf (r2minGlobal ls) (binWidth ls) p.r2 ∧
            binOf (r2minGlobal ls) (binWidth ls) p.r2 < b + r)) := by
  induction r generalizing b with
  | zero =>
    rw [histFrom, List.sum_nil, eq_comm, List.countP_eq_zero]
    intro p hp
    simp only [decide_eq_true_eq, not_and]
    omega
  | succ r ih =>
    rw [histFrom, List.sum_cons, binCount, ih (b + 1)]
    exact countP_split_bin ls.flatten
      (fun p => binOf (r2minGlobal ls) (binWidth ls) p.r2) b r

theorem binOf_lt (rmin bw v : ℚ) : binOf rmin bw v < NUM_BINS := by
  have h1 : (max 0 (min (⌊(v - rmin) / bw⌋) ((NUM_BINS : ℤ) - 1)))
      ≤ (NUM_BINS : ℤ) - 1 :=
    max_le (by norm_num [NUM_BINS]) (min_le_right _ _)
  rw [binOf, NUM_BINS] at *
  omega

theorem histTotal_eq_length (ls : List (List Particle)) :
    histTotal ls = ls.flatten.length := by
  rw [histTotal, globalHist, histFrom_sum]
  have hcong : ∀ x ∈ ls.flatten,
      ((decide (0 ≤ binOf (r2minGlobal ls) (binWidth ls) x.r2 ∧
        binOf (r2minGlobal ls) (binWidth ls) x.r2 < 0 + NUM_BINS)) = true
      ↔ (fun _ : Particle => true) x = true) := by
    intro x hx
    exact iff_of_true
      (decide_eq_true ⟨Nat.zero_le _, by simpa using binOf_lt _ _ _⟩) rfl
  rw [List.countP_congr hcong, List.countP_true]

theorem targetPerRank_eq (ls : List (List Particle)) (size : ℕ) :
    targetPerRank ls size = (ls.flatten.length + size - 1) / size := by
  rw [targetPerRank, histTotal_eq_length]

/-! ### Destination ranks and splitters -/

theorem findIdx_getD_true {α : Type} (p : α → Bool) (l : List α) (d : α)
    (h : l.findIdx p < l.length) : p (l.getD (l.findIdx p) d) = true := by
  induction l with
  | nil => simp at h
  | cons a t ih =>
    cases hpa : p a with
    | true => simp [List.findIdx_cons, hpa, List.getD_cons_zero]
    | false =>
      rw [List.findIdx_cons, hpa] at h ⊢
      simp only [cond_false] at h ⊢
      rw [List.getD_cons_succ]
      exact ih (by simpa using h)

theorem findIdx_getD_false {α : Type} (p : α → Bool) (l : List α) (d : α)
    (i : ℕ) (h : i < l.findIdx p) : p (l.getD i d) = false := by
  induction l generalizing i with
  | nil => simp [List.findIdx_nil] at h
  | cons a t ih =>
    cases hpa : p a with
    | true => rw [List.findIdx_cons, hpa] at h; simp at h
    | false =>
      rw [List.findIdx_cons, hpa] at h
      simp only [cond_false] at h
      cases i with
      | zero => simpa [List.getD_cons_zero] using hpa
      | succ i =>
        rw [List.getD_cons_succ]
        exact ih i (by omega)

theorem destRank_le_length (spl : List ℚ) (v : ℚ) :
    destRank spl v ≤ spl.length :=
  List.findIdx_le_length _

/-- Cross-band ordering: a value assigned to a lower destination is strictly
below one assigned to a higher destination. -/
theorem destRank_mono (spl : List ℚ) (a b : ℚ)
    (hd : destRank spl a < destRank spl b) : a < b := by
  have hlt : destRank spl a < spl.length :=
    lt_of_lt_of_le hd (destRank_le_length spl b)
  have h1 := findIdx_getD_true (fun s => decide (a ≤ s)) spl 0 hlt
  have h2 := findIdx_getD_false (fun s => decide (b ≤ s)) spl 0
    (destRank spl a) hd
  simp only [decide_eq_true_eq] at h1
  simp only [decide_eq_false_iff_not, not_le] at h2
  exact lt_of_le_of_lt h1 h2

theorem splittersCore_length_le (rmin bw : ℚ) (target smax : ℕ)
    (hist : List ℕ) (b cum : ℕ) (acc : List ℚ) (h : acc.length ≤ smax) :
    (splittersCore rmin bw target smax hist b cum acc).length ≤ smax := by
  induction hist generalizing b cum acc with
  | nil => simpa [splittersCore] using h
  | cons h0 rest ih =>
    rw [splittersCore]
    by_cases hg : smax ≤ acc.length
    · rw [if_pos hg]
      exact h
    · rw [if_neg hg]
      by_cases hc : target * (acc.length + 1) ≤ cum + h0
      · rw [if_pos hc]
        exact ih (b + 1) (cum + h0) _ (by simp; omega)
      · rw [if_neg hc]
        exact ih (b + 1) (cum + h0) acc h

theorem splOf_length (w : List (List Particle)) :
    (splOf w).length = w.length - 1 := by
  rw [splOf, splittersOf]
  simp only [List.length_append, List.length_replicate]
  have h := splittersCore_length_le (r2minGlobal (lsOf w)) (binWidth (lsOf w))
    (targetPerRank (lsOf w) w.length) (w.length - 1) (globalHist (lsOf w))
    0 0 [] (by simp)
  omega

theorem destRank_lt_size (w : List (List Particle)) (v : ℚ)
    (h1 : 1 ≤ w.length) : destRank (splOf w) v < w.length := by
  have h := destRank_le_length (splOf w) v
  rw [splOf_length] at h
  omega

theorem getD_map_range {β : Type} (f : ℕ → β) (dflt : β) (n d : ℕ)
    (h : d < n) : ((List.range n).map f).getD d dflt = f d := by
  rw [List.getD_eq_getElem?_getD, List.getElem?_map, List.getElem?_range h]
  rfl

theorem mem_bucket (spl : List ℚ) (shell : List Particle) (d : ℕ)
    (x : Particle) (hx : x ∈ bucketOf spl shell d) :
    x ∈ shell ∧ destRank spl x.r2 = d := by
  rw [bucketOf] at hx
  have h := List.mem_filter.mp hx
  exact ⟨h.1, by simpa using h.2⟩

theorem sortParticlesParallel_length (w : List (List Particle)) :
    (sortParticlesParallel w).length = w.length := by
  rw [sortParticlesParallel]
  by_cases hsz : w.length ≤ 1
  · rw [if_pos hsz, lsOf, List.length_map]
  · rw [if_neg hsz, List.length_map, List.length_range]

theorem mem_sort_shell (w : List (List Particle)) (hsz : ¬w.length ≤ 1)
    (d : ℕ) (hd : d < w.length) (x : Particle)
    (hx : x ∈ (sortParticlesParallel w).getD d []) :
    destRank (splOf w) x.r2 = d := by
  rw [sortParticlesParallel, if_neg hsz, getD_map_range _ _ _ _ hd] at hx
  have hx2 : x ∈ (chunksAt w d).flatten :=
    (kwayMerge_perm (chunksAt w d)).mem_iff.mp hx
  rcases List.mem_flatten.mp hx2 with ⟨chunk, hc, hxc⟩
  rcases List.mem_map.mp hc with ⟨shell, _, rfl⟩
  exact (mem_bucket _ _ _ _ hxc).2

/-- C2: for every input configuration, after `sortParticlesParallel` every
rank's `r2` sequence is non-decreasing, and every particle on a
lower-numbered rank has `r2` at most that of every particle on a
higher-numbered rank (so the concatenation in rank order is sorted). -/
theorem sortParticlesParallel_globally_sorted (w : List (List Particle)) :
    (∀ shell ∈ sortParticlesParallel w, KSorted Particle.r2 shell) ∧
    (∀ p q, p < q → q < (sortParticlesParallel w).length →
      ∀ a ∈ (sortParticlesParallel w).getD p [],
        ∀ b ∈ (sortParticlesParallel w).getD q [], a.r2 ≤ b.r2) := by
  by_cases hsz : w.length ≤ 1
  · constructor
    · rw [sortParticlesParallel, if_pos hsz]
      intro shell hs
      rcases List.mem_map.mp hs with ⟨l, _, rfl⟩
      exact sortByKey_sorted Particle.r2 _
    · intro p q hpq hq a _ b _
      rw [sortParticlesParallel_length] at hq
      omega
  · constructor
    · rw [sortParticlesParallel, if_neg hsz]
      intro shell hs
      rcases List.mem_map.mp hs with ⟨d, _, rfl⟩
      apply kwayMerge_sorted
      intro l hl
      rcases List.mem_map.mp hl with ⟨sh, hsh, rfl⟩
      rcases List.mem_map.mp hsh with ⟨l0, _, rfl⟩
      exact List.Pairwise.filter _ (sortByKey_sorted Particle.r2 _)
    · intro p q hpq hq a ha b hb
      rw [sortParticlesParallel_length] at hq
      have hp : p < w.length := lt_trans hpq hq
      have hda := mem_sort_shell w hsz p hp a ha
      have hdb := mem_sort_shell w hsz q hq b hb
      refine le_of_lt (destRank_mono (splOf w) a.r2 b.r2 ?_)
      rw [hda, hdb]
      exact hpq

/-! ### Conservation: the sort permutes the global particle population -/

theorem coe_flatten (L : List (List Particle)) :
    (↑L.flatten : Multiset Particle) = pendM L := by
  induction L with
  | nil => rfl
  | cons l t ih =>
    rw [List.flatten_cons, pendM_cons, ← ih, ← Multiset.coe_add]

theorem sum_map_zero (D : List ℕ) :
    (D.map (fun _ => (0 : Multiset Particle))).sum = 0 := by
  induction D with
  | nil => rfl
  | cons d t ih => rw [List.map_cons, List.sum_cons, ih, add_zero]

theorem sum_map_add_distrib (D : List ℕ) (A B : ℕ → Multiset Particle) :
    (D.map (fun d => A d + B d)).sum = (D.map A).sum + (D.map B).sum := by
  induction D with
  | nil => simp
  | cons d t ih =>
    simp only [List.map_cons, List.sum_cons, ih]
    abel

theorem sum_map_ite_insert (D : List ℕ) (hD : D.Nodup) (k : ℕ) (hk : k ∈ D)
    (A : ℕ → Multiset Particle) (x : Particle) :
    (D.map (fun d => if k == d then {x} + A d else A d)).sum
      = {x} + (D.map A).sum := by
  induction D with
  | nil => simp at hk
  | cons d0 t ih =>
    rw [List.nodup_cons] at hD
    simp only [List.map_cons, List.sum_cons]
    by_cases hkd : k = d0
    · rw [if_pos (by simpa using hkd)]
      have htail : t.map (fun d => if k == d then {x} + A d else A d)
          = t.map A := by
        apply List.map_congr_left
        intro d hd
        have hne : k ≠ d := by
          intro hkd2
          apply hD.1
          rw [← hkd2] at hd
          rw [hkd] at hd
          exact hd
        rw [if_neg (by simpa using hne)]
      rw [htail, add_assoc]
    · rw [if_neg (by simpa using hkd)]
      have hk2 : k ∈ t := by
        rcases List.mem_cons.mp hk with h | h
        · exact absurd h hkd
        · exact h
      rw [ih hD.2 hk2]
      abel

theorem bucket_partition (spl : List ℚ) (l : List Particle) (n : ℕ)
    (h : ∀ x ∈ l, destRank spl x.r2 < n) :
    ((List.range n).map
      (fun d => (bucketOf spl l d : Multiset Particle))).sum = ↑l := by
  induction l with
  | nil =>
    have hmap : (List.range n).map
        (fun d => ((bucketOf spl [] d : List Particle) : Multiset Particle))
        = (List.range n).map (fun _ => (0 : Multiset Particle)) := by
      apply List.map_congr_left
      intro d _
      rfl
    rw [hmap, sum_map_zero]
    rfl
  | cons x t ih =>
    have hcons : ∀ d, (bucketOf spl (x :: t) d : Multiset Particle)
        = if (destRank spl x.r2 == d)
          then {x} + (bucketOf spl t d : Multiset Particle)
          else (bucketOf spl t d : Multiset Particle) := by
      intro d
      rw [bucketOf, List.filter_cons]
      by_cases hc : (destRank spl x.r2 == d) = true
      · rw [if_pos hc, if_pos hc, ← Multiset.cons_coe,
          ← Multiset.singleton_add]
        rfl
      · rw [if_neg hc, if_neg hc]
        rfl
    have hmap : (List.range n).map
        (fun d => (bucketOf spl (x :: t) d : Multiset Particle))
        = (List.range n).map
          (fun d => if (destRank spl x.r2 == d)
            then {x} + (bucketOf spl t d : Multiset Particle)
            else (bucketOf spl t d : Multiset Particle)) :=
      List.map_congr_left (fun d _ => hcons d)
    rw [hmap, sum_map_ite_insert (List.range n) (List.nodup_range n)
      (destRank spl x.r2) (List.mem_range.mpr (h x (List.mem_cons_self x t)))
      _ x]
    rw [ih (fun y hy => h y (List.mem_cons_of_mem x hy))]
    rw [Multiset.singleton_add, Multiset.cons_coe]

theorem bucket_rows (S : List (List Particle)) (spl : List ℚ) (n : ℕ)
    (h : ∀ shell ∈ S, ∀ x ∈ shell, destRank spl x.r2 < n) :
    ((List.range n).map
      (fun d => pendM (S.map (fun shell => bucketOf spl shell d)))).sum
      = pendM S := by
  induction S with
  | nil =>
    have hmap : (List.range n).map
        (fun d => pendM (([] : List (List Particle)).map
          (fun shell => bucketOf spl shell d)))
        = (List.range n).map (fun _ => (0 : Multiset Particle)) :=
      List.map_congr_left (fun d _ => rfl)
    rw [hmap, sum_map_zero]
    rfl
  | cons shell rest ih =>
    have hmap : (List.range n).map
        (fun d => pendM ((shell :: rest).map
          (fun sh => bucketOf spl sh d)))
        = (List.range n).map
          (fun d => (bucketOf spl shell d : Multiset Particle)
            + pendM (rest.map (fun sh => bucketOf spl sh d))) :=
      List.map_congr_left (fun d _ => by rw [List.map_cons, pendM_cons])
    rw [hmap, sum_map_add_distrib, pendM_cons,
      bucket_partition spl shell n (h shell (List.mem_cons_self shell rest)),
      ih (fun sh hsh => h sh (List.mem_cons_of_mem shell hsh))]

theorem pendM_map (D : List ℕ) (f : ℕ → List Particle) :
    pendM (D.map f) = (D.map (fun d => (f d : Multiset Particle))).sum := by
  induction D with
  | nil => rfl
  | cons d t ih =>
    rw [List.map_cons, pendM_cons, List.map_cons, List.sum_cons, ih]

theorem sortFlatten_multiset (w : List (List Particle))
    (hsz : ¬w.length ≤ 1) :
    (↑(sortParticlesParallel w).flatten : Multiset Particle)
      = pendM (lsOf w) := by
  rw [sortParticlesParallel, if_neg hsz, coe_flatten, pendM_map]
  have hmap : (List.range w.length).map
      (fun d => ((kwayMerge (chunksAt w d) : List Particle)
        : Multiset Particle))
      = (List.range w.length).map
        (fun d => pendM ((lsOf w).map
          (fun shell => bucketOf (splOf w) shell d))) := by
    apply List.map_congr_left
    intro d _
    rw [kwayMerge_multiset, coe_flatten]
    rfl
  rw [hmap]
  exact bucket_rows (lsOf w) (splOf w) w.length
    (fun shell _ x _ => destRank_lt_size w x.r2 (by omega))

theorem canonR2_canonR2 (p : Particle) : canonR2 (canonR2 p) = canonR2 p := by
  simp [canonR2]

theorem localPhase_map_canon (l : List Particle) :
    ((localPhase l).map canonR2).Perm (l.map canonR2) := by
  have h1 : ((localPhase l).map canonR2).Perm
      ((computeSquareRadius l).map canonR2) :=
    (sortByKey_perm Particle.r2 (computeSquareRadius l)).map canonR2
  refine h1.trans ?_
  rw [computeSquareRadius, List.map_map]
  rw [show canonR2 ∘ canonR2 = canonR2 from funext canonR2_canonR2]

theorem flatten_lsOf_canon (w : List (List Particle)) :
    ((lsOf w).flatten.map canonR2).Perm (w.flatten.map canonR2) := by
  induction w with
  | nil => rfl
  | cons l t ih =>
    rw [lsOf, List.map_cons, List.flatten_cons, List.flatten_cons,
      List.map_append, List.map_append]
    exact (localPhase_map_canon l).append ih

/-- C9: `sortParticlesParallel` preserves the global multiset of particle
records (all nine fields, with the `r2` cache recomputed from positions on
both sides): the concatenation over ranks after the call is a permutation of
the concatenation before it. -/
theorem sortParticlesParallel_conserves (w : List (List Particle)) :
    ((sortParticlesParallel w).flatten.map canonR2).Perm
      (w.flatten.map canonR2) := by
  by_cases hsz : w.length ≤ 1
  · rw [sortParticlesParallel, if_pos hsz]
    exact flatten_lsOf_canon w
  · have hms := sortFlatten_multiset w hsz
    rw [← coe_flatten] at hms
    exact ((Multiset.coe_eq_coe.mp hms).map canonR2).trans
      (flatten_lsOf_canon w)

/-! ### Concrete scenarios -/

set_option exponentiation.threshold 2000

/-- A particle at `(x, 0, 0)` with charge `q`, zero velocity and field, and a
consistent `r2` cache. -/
def mkP (x q : ℚ) : Particle := ⟨x, 0, 0, 0, 0, 0, q, 0, x * x⟩

/-- Scenario S5: three ranks, nine particles, all at `r2 = 1`. -/
def wS5 : List (List Particle) :=
  [[mkP 1 1, mkP 1 1, mkP 1 1], [mkP 1 1, mkP 1 1, mkP 1 1],
   [mkP 1 1, mkP 1 1, mkP 1 1]]

theorem splOf_wS5 : splOf wS5 = [1025 / 1024, 513 / 512] := by
  rw [splOf, splittersOf, targetPerRank_eq]
  with_unfolding_all rfl

theorem sortS5_counts : (sortParticlesParallel wS5).map List.length
    = [9, 0, 0] := by
  rw [sortParticlesParallel]
  rw [if_neg (by decide : ¬wS5.length ≤ 1)]
  simp only [chunksAt, splOf_wS5]
  with_unfolding_all rfl

/-- A globally sorted but imbalanced configuration: rank 0 owns `r2 = 1`,
rank 1 owns `r2 = 1.002001, 100, 100`. -/
def wSorted : List (List Particle) :=
  [[mkP 1 1], [mkP (1001 / 1000) 1, mkP 10 1, mkP 10 1]]

theorem splOf_wSorted : splOf wSorted = [1123 / 1024] := by
  rw [splOf, splittersOf, targetPerRank_eq]
  with_unfolding_all rfl

theorem sendCounts_wSorted : sendCounts wSorted 1 = [1, 2] := by
  rw [sendCounts, show (List.range wSorted.length) = [0, 1] from rfl,
    List.map_cons, List.map_cons, List.map_nil, splOf_wSorted]
  with_unfolding_all rfl

/-- A globally sorted and splitter-balanced configuration: rank 0 owns
`r2 = 1`, rank 1 owns `r2 = 100`. -/
def wBal : List (List Particle) := [[mkP 1 1], [mkP 10 1]]

theorem splOf_wBal : splOf wBal = [1123 / 1024] := by
  rw [splOf, splittersOf, targetPerRank_eq]
  with_unfolding_all rfl

theorem sendCounts_wBal0 : sendCounts wBal 0 = [1, 0] := by
  rw [sendCounts, show (List.range wBal.length) = [0, 1] from rfl,
    List.map_cons, List.map_cons, List.map_nil, splOf_wBal]
  with_unfolding_all rfl

theorem sendCounts_wBal1 : sendCounts wBal 1 = [0, 1] := by
  rw [sendCounts, show (List.range wBal.length) = [0, 1] from rfl,
    List.map_cons, List.map_cons, List.map_nil, splOf_wBal]
  with_unfolding_all rfl

theorem sortWBal_eq : sortParticlesParallel wBal = [[mkP 1 1], [mkP 10 1]] := by
  rw [sortParticlesParallel]
  rw [if_neg (by decide : ¬wBal.length ≤ 1)]
  simp only [chunksAt, splOf_wBal]
  with_unfolding_all rfl

theorem sortWBal_counts : (sortParticlesParallel wBal).map List.length
    = [1, 1] := by
  rw [sortWBal_eq]
  rfl

/-! ### Claim theorems on the concrete scenarios -/

/-- C3 counterexample: in scenario S5 the ranks do NOT hold three particles
each; rank 0 receives all nine. -/
theorem sortParticlesParallel_S5_not_three_each :
    (sortParticlesParallel wS5).map List.length = [9, 0, 0] ∧
    (sortParticlesParallel wS5).map List.length ≠ [3, 3, 3] := by
  refine ⟨sortS5_counts, ?_⟩
  rw [sortS5_counts]
  decide

/-- C3, amended: in scenario S5 (three ranks, nine particles all at
`r2 = 1`, three per rank initially) every particle is assigned to rank 0
after the sort: the per-rank counts are `9, 0, 0`, not `3, 3, 3`. -/
theorem sortParticlesParallel_S5_all_on_rank0 :
    (sortParticlesParallel wS5).map List.length = [9, 0, 0] :=
  sortS5_counts

/-- C5 counterexample: in scenario S5 rank 0 ends with 9 particles, while
the claimed bound demands `|9 - ceil(9/3)| = 6 ≤ 9/1024 + 1 = 1`. -/
theorem sortParticlesParallel_balance_cex :
    (sortParticlesParallel wS5).map List.length = [9, 0, 0] ∧
    ¬(((9 : ℤ) - 3).natAbs ≤ 9 / 1024 + 1) := by
  refine ⟨sortS5_counts, ?_⟩
  decide

/-- C5, amended: the histogram-grain balance bound does not hold for all
configurations (S5 breaks it); it does hold on configurations whose
splitter bands receive balanced shares, e.g. two ranks with `r2 = 1` and
`r2 = 100`: both ranks end with 1 particle and
`|1 - ceil(2/2)| = 0 ≤ 2/1024 + 1`. -/
theorem sortParticlesParallel_balance_wBal :
    (sortParticlesParallel wBal).map List.length = [1, 1] ∧
    ((1 : ℤ) - 1).natAbs ≤ 2 / 1024 + 1 := by
  refine ⟨sortWBal_counts, ?_⟩
  decide

theorem wSorted_shellOrder : WorldShellOrder wSorted := by
  intro p q hpq hq a ha b hb
  have hq2 : q < 2 := by simpa [wSorted] using hq
  have hp0 : p = 0 := by omega
  have hq1 : q = 1 := by omega
  subst hp0
  subst hq1
  have ha2 : a ∈ [mkP 1 1] := ha
  have hb2 : b ∈ [mkP (1001 / 1000) 1, mkP 10 1, mkP 10 1] := hb
  rcases List.mem_singleton.mp ha2 with rfl
  rcases List.mem_cons.mp hb2 with rfl | hb3
  · norm_num [mkP]
  rcases List.mem_cons.mp hb3 with rfl | hb4
  · norm_num [mkP]
  rcases List.mem_singleton.mp hb4 with rfl
  norm_num [mkP]

/-- C6 counterexample: a globally sorted but imbalanced configuration
(`r2 = 1` on rank 0; `r2 = 1.002001, 100, 100` on rank 1) still moves a
particle: rank 1's `send_counts` is `[1, 2]`, not the identity `[0, 3]`. -/
theorem sendCounts_sorted_not_identity :
    KSorted Particle.r2 (wSorted.getD 0 []) ∧
    KSorted Particle.r2 (wSorted.getD 1 []) ∧
    WorldShellOrder wSorted ∧
    sendCounts wSorted 1 = [1, 2] ∧
    sendCounts wSorted 1 ≠ [0, 3] := by
  refine ⟨of_decide_eq_true (by with_unfolding_all rfl),
    of_decide_eq_true (by with_unfolding_all rfl),
    wSorted_shellOrder, sendCounts_wSorted, ?_⟩
  rw [sendCounts_wSorted]
  decide

theorem wBal_shellOrder : WorldShellOrder wBal := by
  intro p q hpq hq a ha b hb
  have hq2 : q < 2 := by simpa [wBal] using hq
  have hp0 : p = 0 := by omega
  have hq1 : q = 1 := by omega
  subst hp0
  subst hq1
  have ha2 : a ∈ [mkP 1 1] := ha
  have hb2 : b ∈ [mkP 10 1] := hb
  rcases List.mem_singleton.mp ha2 with rfl
  rcases List.mem_singleton.mp hb2 with rfl
  norm_num [mkP]

/-- C6, amended: an already-globally-sorted configuration may still exchange
particles (the histogram splitters rebalance the load); when the sorted
configuration already matches the splitter bands — two ranks holding
`r2 = 1` and `r2 = 100` — `send_counts` is the identity pattern. -/
theorem sendCounts_balanced_identity :
    KSorted Particle.r2 (wBal.getD 0 []) ∧
    KSorted Particle.r2 (wBal.getD 1 []) ∧
    WorldShellOrder wBal ∧
    sendCounts wBal 0 = [1, 0] ∧
    sendCounts wBal 1 = [0, 1] :=
  ⟨of_decide_eq_true (by with_unfolding_all rfl),
    of_decide_eq_true (by with_unfolding_all rfl),
    wBal_shellOrder, sendCounts_wBal0, sendCounts_wBal1⟩

/-- A bare particle carrying an `r2` key and a distinguishing charge. -/
def keyP (r2v q : ℚ) : Particle := ⟨0, 0, 0, 0, 0, 0, q, 0, r2v⟩

/-- Received chunks exhibiting the tie: chunk 0 holds `r2 = 4, 9` (charges
1, 7), chunk 1 holds `r2 = 9` (charge 5). -/
def cexChunks : List (List Particle) :=
  [[keyP 4 1, keyP 9 7], [keyP 9 5]]

/-- C4 counterexample: the merge comparator ignores `chunk_id`, and on equal
`r2` the earlier-queued element pops first: with sorted chunks
`[4, 9] | [9]`, chunk 1's tied element is emitted BEFORE chunk 0's, so the
claimed `(r2, chunk id)` order (which would give `4, 9(chunk 0), 9(chunk 1)`)
is violated. -/
theorem kwayMerge_tie_cex :
    KSorted Particle.r2 (cexChunks.getD 0 []) ∧
    KSorted Particle.r2 (cexChunks.getD 1 []) ∧
    kwayMerge cexChunks = [keyP 4 1, keyP 9 5, keyP 9 7] ∧
    kwayMerge cexChunks ≠ [keyP 4 1, keyP 9 7, keyP 9 5] := by
  have hmerge : kwayMerge cexChunks = [keyP 4 1, keyP 9 5, keyP 9 7] := by
    with_unfolding_all rfl
  refine ⟨of_decide_eq_true (by with_unfolding_all rfl),
    of_decide_eq_true (by with_unfolding_all rfl), hmerge, ?_⟩
  rw [hmerge]
  exact of_decide_eq_false (by with_unfolding_all rfl)

/-- C4, amended: the k-way merge of the (sorted) received chunks emits the
particles in non-decreasing `r2` order and is a permutation of the chunks'
concatenation; ties between equal `r2` values follow the queue's internal
order, which is NOT the chunk id order in general. -/
theorem kwayMerge_sorted_perm (chunks : List (List Particle))
    (h : ∀ l ∈ chunks, KSorted Particle.r2 l) :
    KSorted Particle.r2 (kwayMerge chunks) ∧
    (kwayMerge chunks).Perm chunks.flatten :=
  ⟨kwayMerge_sorted chunks h, kwayMerge_perm chunks⟩

theorem kwayMerge_sorted_perm_witness :
    KSorted Particle.r2 (kwayMerge cexChunks) ∧
    (kwayMerge cexChunks).Perm cexChunks.flatten :=
  kwayMerge_sorted_perm cexChunks
    (of_decide_eq_true (by with_unfolding_all rfl))

/-- C7 counterexample: on an empty shell `getMaxRadiusSquared` returns
`0.0` (its running maximum starts at `0.0`), not minus infinity as the
spec's `max_r2_local` promises. -/
theorem getMaxRadiusSquared_empty_cex :
    getMaxRadiusSquared emptyPS = 0 ∧ maxR2Spec emptyPS = ⊥ ∧
      ((0 : ℚ) : WithBot ℚ) ≠ ⊥ :=
  ⟨rfl, rfl, by simp⟩

/-- A two-particle system with `r2 = 1` and `r2 = 4`. -/
def psC7 : ParticleSystem := ⟨[mkP 1 1, mkP 2 1], 1, 2⟩

theorem getMaxRadiusSquared_amended_witness :
    (∃ p ∈ psC7.particles, getMaxRadiusSquared psC7 = p.r2) ∧
    (∀ p ∈ psC7.particles, p.r2 ≤ getMaxRadiusSquared psC7) := by
  have h := getMaxRadiusSquared_amended psC7
    (of_decide_eq_true (by with_unfolding_all rfl))
  exact h.2 (List.cons_ne_nil _ _)

/-- One rank holding one particle at `x = 1`, `q = 5`. -/
def wC1 : List ParticleSystem := [⟨[mkP 1 5], 1, 1⟩]

theorem wC1_shellOrder : WorldShellOrder (wC1.map ParticleSystem.particles) := by
  intro p q hpq hq a ha b hb
  rw [List.length_map] at hq
  have : q < 1 := hq
  omega

theorem updateElectricFieldParallel_spec_witness :
    epsR2 < ((wC1.getD 0 default).particles.getD 0 default).r2 ∧
    (((updateElectricFieldParallel wC1).getD 0 default).particles.getD 0
        default).Er
      = QencAt wC1 0 0
          / ((wC1.getD 0 default).particles.getD 0 default).r2 := by
  have hgt : epsR2 < ((wC1.getD 0 default).particles.getD 0 default).r2 :=
    of_decide_eq_true (by with_unfolding_all rfl)
  have h := updateElectricFieldParallel_spec wC1 0 0
    (of_decide_eq_true (by with_unfolding_all rfl))
    wC1_shellOrder
    (of_decide_eq_true (by with_unfolding_all rfl))
    (of_decide_eq_true (by with_unfolding_all rfl))
    (of_decide_eq_true (by with_unfolding_all rfl))
  exact ⟨hgt, h.1 hgt⟩

theorem sortParticlesParallel_globally_sorted_witness :
    KSorted Particle.r2 ((sortParticlesParallel wBal).getD 0 []) ∧
    (mkP 1 1).r2 ≤ (mkP 10 1).r2 := by
  have h := sortParticlesParallel_globally_sorted wBal
  constructor
  · refine h.1 _ ?_
    rw [sortWBal_eq]
    exact List.mem_cons_self _ _
  · refine h.2 0 1 (by decide) ?_ (mkP 1 1) ?_ (mkP 10 1) ?_
    · rw [sortParticlesParallel_length]
      decide
    · rw [sortWBal_eq]
      show mkP 1 1 ∈ [mkP 1 1]
      exact List.mem_cons_self _ _
    · rw [sortWBal_eq]
      show mkP 10 1 ∈ [mkP 10 1]
      exact List.mem_cons_self _ _
